import Mathlib

/-!
# Verification of the todo-list store (`src/App.jsx`)

Shallow embedding of the state container of the single-page todo application:
the `useState` hooks of the `App` component form the state, and each event
handler (`addTodo`, `toggleTodo`, `deleteTodo`, `addCategory`,
`deleteCategory`, `saveEditCategory` — the rename operation —, and the two
selection setters) becomes a pure function from state to state.

Conventions of the embedding:
* `Date.now()` is an environment input: `addTodo` receives the clock reading
  `now : Nat` as an argument.
* JavaScript string truthiness of `input.trim()` is `jsTrim text ≠ ""`;
  `selectedCategory || 'Uncategorized'` is
  `if selectedCategory = "" then "Uncategorized" else selectedCategory`.
* `Array.prototype.sort` with comparator `(a, b) => a.category.localeCompare
  (b.category)` is a stable sort by the comparator; it is embedded as the
  stable `List.insertionSort` over the non-strict relation `catLE lc`, with
  the locale collation `lc : String → String → Ordering` kept abstract.
-/

namespace TodoApp

/-- JavaScript `String.prototype.trim()`: the string with leading and
trailing whitespace removed.  Written by structural recursion over the
character data so that it evaluates inside the kernel. -/
def jsTrim (s : String) : String :=
  ⟨((s.data.dropWhile Char.isWhitespace).reverse.dropWhile
      Char.isWhitespace).reverse⟩

/-- A todo item: the object literal built in `addTodo`
(`{ id, text, completed, category }`). -/
structure Todo where
  id : Nat
  text : String
  completed : Bool
  category : String
deriving DecidableEq, Repr

/-- The store state: the `todos`, `categories`, `selectedCategory` and
`filterCategory` hooks of `App`.  The text-input hooks (`input`,
`newCategory`, `editCategoryValue`) are passed to the operations as
arguments instead of being stored. -/
structure AppState where
  todos : List Todo
  categories : List String
  selectedCategory : String
  filterCategory : String
deriving DecidableEq, Repr

/-- The initial hook values: no todos, categories
`['Personal', 'Work', 'Shopping']`, empty input selection, filter `'all'`. -/
def initState : AppState :=
  ⟨[], ["Personal", "Work", "Shopping"], "", "all"⟩

/-- `addTodo`: if `input.trim()` is truthy, append
`{ id: Date.now(), text: input, completed: false,
   category: selectedCategory || 'Uncategorized' }`. -/
def addTodo (s : AppState) (text : String) (now : Nat) : AppState :=
  if jsTrim text ≠ "" then
    { s with todos := s.todos ++
        [⟨now, text, false,
          if s.selectedCategory = "" then "Uncategorized"
          else s.selectedCategory⟩] }
  else s

/-- `toggleTodo(id)`: map over todos flipping `completed` on the id match. -/
def toggleTodo (s : AppState) (id : Nat) : AppState :=
  { s with todos := s.todos.map fun t =>
      if t.id = id then { t with completed := !t.completed } else t }

/-- `deleteTodo(id)`: keep the todos whose id differs. -/
def deleteTodo (s : AppState) (id : Nat) : AppState :=
  { s with todos := s.todos.filter fun t => t.id ≠ id }

/-- `addCategory`: if `newCategory.trim()` is truthy and the trimmed name is
not already in `categories`, append the trimmed name. -/
def addCategory (s : AppState) (name : String) : AppState :=
  if jsTrim name ≠ "" ∧ jsTrim name ∉ s.categories then
    { s with categories := s.categories ++ [jsTrim name] }
  else s

/-- `deleteCategory(categoryToDelete)`: filter the name out of `categories`,
rewrite matching todos to `'Uncategorized'`, and reset `selectedCategory`
(to `''`) and `filterCategory` (to `'all'`) when they equal the name. -/
def deleteCategory (s : AppState) (name : String) : AppState :=
  { s with
    categories := s.categories.filter (· ≠ name),
    todos := s.todos.map fun t =>
      if t.category = name then { t with category := "Uncategorized" } else t,
    selectedCategory :=
      if s.selectedCategory = name then "" else s.selectedCategory,
    filterCategory :=
      if s.filterCategory = name then "all" else s.filterCategory }

/-- `saveEditCategory` with `editingCategory = oldName` and
`editCategoryValue = newName`: if `editCategoryValue.trim()` is truthy and the trimmed
value is not already in `categories`, replace `oldName` by the trimmed value
in `categories`, rewrite matching todos, and update the selection and the
filter when they equal `oldName`. -/
def renameCategory (s : AppState) (oldName newName : String) : AppState :=
  if jsTrim newName ≠ "" ∧ jsTrim newName ∉ s.categories then
    { s with
      categories := s.categories.map fun c =>
        if c = oldName then jsTrim newName else c,
      todos := s.todos.map fun t =>
        if t.category = oldName then { t with category := jsTrim newName }
        else t,
      selectedCategory :=
        if s.selectedCategory = oldName then jsTrim newName
        else s.selectedCategory,
      filterCategory :=
        if s.filterCategory = oldName then jsTrim newName
        else s.filterCategory }
  else s

/-- `setFilterCategory`: store any string as the active filter. -/
def setFilter (s : AppState) (c : String) : AppState :=
  { s with filterCategory := c }

/-- `setSelectedCategory`: store any string as the input-category. -/
def setInputCategory (s : AppState) (c : String) : AppState :=
  { s with selectedCategory := c }

/-- `filteredTodos`: all todos when the filter is `'all'`, otherwise the
todos whose category equals the filter. -/
def filteredTodos (s : AppState) : List Todo :=
  if s.filterCategory = "all" then s.todos
  else s.todos.filter fun t => t.category = s.filterCategory

/-- The non-strict order induced on todos by a comparator on category
names: `a` may come before `b` unless the comparator says `a.category`
is strictly greater. -/
def catLE (lc : String → String → Ordering) (a b : Todo) : Prop :=
  lc a.category b.category ≠ Ordering.gt

instance (lc : String → String → Ordering) : DecidableRel (catLE lc) :=
  fun _ _ => by unfold catLE; infer_instance

/-- `sortedTodos`: the filtered todos, sorted stably by category using the
comparator `(a, b) => a.category.localeCompare(b.category)`; the locale
collation `lc` is abstract. -/
def sortedTodos (lc : String → String → Ordering) (s : AppState) :
    List Todo :=
  List.insertionSort (catLE lc) (filteredTodos s)

/-! ## Traces of store operations -/

/-- One user-triggered store operation.  `addTodo` carries the text typed in
the input box and the `Date.now()` reading of the triggering event. -/
inductive Op where
  | addTodo (text : String) (now : Nat)
  | toggleTodo (id : Nat)
  | deleteTodo (id : Nat)
  | addCategory (name : String)
  | deleteCategory (name : String)
  | renameCategory (oldName newName : String)
  | setFilter (c : String)
  | setInputCategory (c : String)
deriving DecidableEq, Repr

/-- Apply one operation to the state. -/
def step (s : AppState) : Op → AppState
  | .addTodo text now => addTodo s text now
  | .toggleTodo id => toggleTodo s id
  | .deleteTodo id => deleteTodo s id
  | .addCategory name => addCategory s name
  | .deleteCategory name => deleteCategory s name
  | .renameCategory oldName newName => renameCategory s oldName newName
  | .setFilter c => setFilter s c
  | .setInputCategory c => setInputCategory s c

/-- Run a trace of operations from a given state. -/
def runFrom (s : AppState) (ops : List Op) : AppState :=
  ops.foldl step s

/-- Run a trace of operations from the initial state. -/
def run (ops : List Op) : AppState :=
  runFrom initState ops

/-- The `Date.now()` readings of the `addTodo` events of a trace, in
order. -/
def clocks (ops : List Op) : List Nat :=
  ops.filterMap fun op =>
    match op with
    | .addTodo _ now => some now
    | _ => none

/-- States reachable through the user interface: `setSelectedCategory` is
only fed the values of the category dropdown (the empty `'Uncategorized'`
option or a listed category), and `saveEditCategory` only renames a category
that `startEditCategory` picked from the rendered list. -/
inductive ReachableUI : AppState → Prop where
  | init : ReachableUI initState
  | addTodo {s} (h : ReachableUI s) (text : String) (now : Nat) :
      ReachableUI (addTodo s text now)
  | toggleTodo {s} (h : ReachableUI s) (id : Nat) :
      ReachableUI (toggleTodo s id)
  | deleteTodo {s} (h : ReachableUI s) (id : Nat) :
      ReachableUI (deleteTodo s id)
  | addCategory {s} (h : ReachableUI s) (name : String) :
      ReachableUI (addCategory s name)
  | deleteCategory {s} (h : ReachableUI s) (name : String) :
      ReachableUI (deleteCategory s name)
  | renameCategory {s} (h : ReachableUI s) {oldName : String}
      (hold : oldName ∈ s.categories) (newName : String) :
      ReachableUI (renameCategory s oldName newName)
  | setFilter {s} (h : ReachableUI s) (c : String) :
      ReachableUI (setFilter s c)
  | setInputCategory {s} (h : ReachableUI s) {c : String}
      (hc : c = "" ∨ c ∈ s.categories) :
      ReachableUI (setInputCategory s c)

/-- Referential integrity of todo categories: every stored todo is
`"Uncategorized"` or carries a category present in the collection. -/
def TodoCategoriesValid (s : AppState) : Prop :=
  ∀ t ∈ s.todos, t.category = "Uncategorized" ∨ t.category ∈ s.categories

instance (s : AppState) : Decidable (TodoCategoriesValid s) := by
  unfold TodoCategoriesValid; exact List.decidableBAll _ _

/-- The input-category selection is the empty default or a stored
category. -/
def SelectionValid (s : AppState) : Prop :=
  s.selectedCategory = "" ∨ s.selectedCategory ∈ s.categories

/-! ## Specifications of the single operations -/

/-- What one successful `addTodo` call does: one todo appended at the end,
with the untrimmed text, `completed = false`, and the selected category or
the `'Uncategorized'` default; nothing else changes. -/
def AddTodoSpec (s : AppState) (text : String) (now : Nat) : Prop :=
  (addTodo s text now).todos =
    s.todos ++ [⟨now, text, false,
      if s.selectedCategory = "" then "Uncategorized"
      else s.selectedCategory⟩]
  ∧ (addTodo s text now).todos.length = s.todos.length + 1
  ∧ (addTodo s text now).categories = s.categories
  ∧ (addTodo s text now).selectedCategory = s.selectedCategory
  ∧ (addTodo s text now).filterCategory = s.filterCategory

/-- What `toggleTodo` does: flip `completed` on the id match, keep every
other field and the rest of the state; done twice it restores the state. -/
def ToggleTodoSpec (s : AppState) (id : Nat) : Prop :=
  toggleTodo (toggleTodo s id) id = s
  ∧ (toggleTodo s id).todos = s.todos.map (fun t =>
      if t.id = id then { t with completed := !t.completed } else t)
  ∧ (toggleTodo s id).categories = s.categories
  ∧ (toggleTodo s id).selectedCategory = s.selectedCategory
  ∧ (toggleTodo s id).filterCategory = s.filterCategory

/-- What one successful `addCategory` call does: the trimmed name is
appended at the end of the collection; todos and selections unchanged. -/
def AddCategorySpec (s : AppState) (name : String) : Prop :=
  (addCategory s name).categories = s.categories ++ [jsTrim name]
  ∧ (addCategory s name).todos = s.todos
  ∧ (addCategory s name).selectedCategory = s.selectedCategory
  ∧ (addCategory s name).filterCategory = s.filterCategory

/-- The cascade of `deleteCategory`, applied unconditionally: matching todos
are rewritten to `'Uncategorized'` and the two selections are reset when
they equal the deleted name. -/
def DeleteCategoryCascadeSpec (s : AppState) (name : String) : Prop :=
  (deleteCategory s name).todos = s.todos.map (fun t =>
      if t.category = name then { t with category := "Uncategorized" }
      else t)
  ∧ (deleteCategory s name).selectedCategory =
      (if s.selectedCategory = name then "" else s.selectedCategory)
  ∧ (deleteCategory s name).filterCategory =
      (if s.filterCategory = name then "all" else s.filterCategory)

lemma map_eq_self {α : Type _} {f : α → α} {l : List α}
    (h : ∀ a ∈ l, f a = a) : l.map f = l := by
  induction l with
  | nil => rfl
  | cons a l ih =>
    simp only [List.map_cons, h a (List.mem_cons_self a l)]
    rw [ih fun b hb => h b (List.mem_cons_of_mem _ hb)]

/-! ## Claims about the single operations -/

/-- C4: `addTodo` is a no-op when the text trims to empty (in particular on
`""` and `"   "`); otherwise it appends exactly one todo at the end, with
the untrimmed text, `completed = false`, and the selected category or the
`'Uncategorized'` default, leaving all existing todos unchanged. -/
theorem addTodo_spec (s : AppState) (text : String) (now : Nat) :
    (jsTrim text = "" → addTodo s text now = s)
    ∧ (jsTrim text ≠ "" → AddTodoSpec s text now)
    ∧ addTodo s "" now = s ∧ addTodo s "   " now = s := by
  refine ⟨fun h => ?_, fun h => ?_, ?_, ?_⟩
  · simp [addTodo, h]
  · unfold AddTodoSpec addTodo
    simp [h]
  · simp [addTodo, show jsTrim "" = "" by decide]
  · simp [addTodo, show jsTrim "   " = "" by decide]

theorem addTodo_spec_witness :
    (jsTrim "buy milk" ≠ "" ∧ AddTodoSpec initState "buy milk" 7)
    ∧ (jsTrim "" = "" ∧ addTodo initState "" 7 = initState) :=
  ⟨⟨by decide, (addTodo_spec initState "buy milk" 7).2.1 (by decide)⟩,
   ⟨by decide, (addTodo_spec initState "" 7).1 (by decide)⟩⟩

/-- C7: `toggleTodo` flips the `completed` flag of the matching todo and
changes nothing else; it is a no-op when no todo carries the id, and
applying it twice restores the whole state. -/
theorem toggleTodo_spec (s : AppState) (id : Nat) :
    ToggleTodoSpec s id
    ∧ ((∀ t ∈ s.todos, t.id ≠ id) → toggleTodo s id = s) := by
  obtain ⟨todos, cats, sel, filt⟩ := s
  constructor
  · refine ⟨?_, rfl, rfl, rfl, rfl⟩
    simp only [toggleTodo, List.map_map]
    congr 1
    apply map_eq_self
    intro t _
    by_cases h : t.id = id
    · subst h; simp [Function.comp]
    · simp [h, Function.comp]
  · intro h
    simp only [toggleTodo]
    congr 1
    apply map_eq_self
    intro t ht
    simp [h t ht]

theorem toggleTodo_spec_witness :
    ToggleTodoSpec ⟨[⟨1, "a", false, "Work"⟩], ["Work"], "", "all"⟩ 1
    ∧ ((∀ t ∈ (⟨[⟨1, "a", false, "Work"⟩], ["Work"], "", "all"⟩ :
          AppState).todos, t.id ≠ 2) →
        toggleTodo ⟨[⟨1, "a", false, "Work"⟩], ["Work"], "", "all"⟩ 2 =
          ⟨[⟨1, "a", false, "Work"⟩], ["Work"], "", "all"⟩) :=
  ⟨(toggleTodo_spec ⟨[⟨1, "a", false, "Work"⟩], ["Work"], "", "all"⟩ 1).1,
   (toggleTodo_spec ⟨[⟨1, "a", false, "Work"⟩], ["Work"], "", "all"⟩ 2).2⟩

/-- C9: `addCategory` trims the name before both the duplicate check and
the insertion: a non-empty trimmed name not yet stored is appended trimmed,
and `addCategory(" Work ")` after `addCategory("Work")` is a no-op. -/
theorem addCategory_spec (s : AppState) (name : String) :
    (jsTrim name ≠ "" → jsTrim name ∉ s.categories → AddCategorySpec s name)
    ∧ addCategory (addCategory s "Work") " Work " = addCategory s "Work" := by
  constructor
  · intro h1 h2
    unfold AddCategorySpec addCategory
    simp [h1, h2]
  · have hW : "Work" ∈ (addCategory s "Work").categories := by
      unfold addCategory
      rw [show jsTrim "Work" = "Work" by decide]
      by_cases h : "Work" ∈ s.categories
      · by_cases h' : ("Work" : String) ≠ "" ∧ "Work" ∉ s.categories
        · exact absurd h h'.2
        · rw [if_neg h']; exact h
      · rw [if_pos ⟨by decide, h⟩]; simp
    unfold addCategory
    rw [if_neg]
    rw [show jsTrim " Work " = "Work" by decide]
    exact fun hcon => hcon.2 hW

theorem addCategory_spec_witness :
    (jsTrim " Garden " ≠ "" ∧ jsTrim " Garden " ∉ initState.categories
      ∧ AddCategorySpec initState " Garden ")
    ∧ addCategory (addCategory initState "Work") " Work " =
        addCategory initState "Work" :=
  ⟨⟨by decide, by decide,
    (addCategory_spec initState " Garden ").1 (by decide) (by decide)⟩,
   (addCategory_spec initState "NoMatter").2⟩

/-- C10: `deleteCategory` applies its todo rewrite and selection resets
unconditionally, even when the name is absent from the categories
collection (which is then unchanged); on such a state it need not be a
state-preserving no-op. -/
theorem deleteCategory_absent_spec (s : AppState) (name : String) :
    DeleteCategoryCascadeSpec s name
    ∧ (name ∉ s.categories →
        (deleteCategory s name).categories = s.categories)
    ∧ deleteCategory ⟨[⟨1, "x", false, "Ghost"⟩], [], "Ghost", "Ghost"⟩
        "Ghost" ≠ ⟨[⟨1, "x", false, "Ghost"⟩], [], "Ghost", "Ghost"⟩ := by
  refine ⟨⟨rfl, rfl, rfl⟩, fun h => ?_, by decide⟩
  simp only [deleteCategory]
  exact List.filter_eq_self.mpr fun c hc => by
    simp only [ne_eq, decide_eq_true_eq]
    exact fun e => h (e ▸ hc)

lemma length_filter_ne_of_nodup (name : String) (l : List String)
    (h : l.Nodup) :
    (l.filter (· ≠ name)).length =
      if name ∈ l then l.length - 1 else l.length := by
  induction l with
  | nil => simp
  | cons a l ih =>
    rw [List.nodup_cons] at h
    obtain ⟨ha, hl⟩ := h
    by_cases hae : a = name
    · subst hae
      have hfl : l.filter (· ≠ a) = l :=
        List.filter_eq_self.mpr fun b hb => by
          simp only [ne_eq, decide_eq_true_eq]
          exact fun e => ha (e ▸ hb)
      rw [List.filter_cons_of_neg (by simp)]
      rw [hfl, if_pos (List.mem_cons_self a l)]
      simp
    · rw [List.filter_cons_of_pos (by simp [hae])]
      simp only [List.length_cons]
      rw [ih hl]
      by_cases hm : name ∈ l
      · have h1 : 1 ≤ l.length := List.length_pos.mpr (List.ne_nil_of_mem hm)
        rw [if_pos hm, if_pos (List.mem_cons_of_mem _ hm)]
        omega
      · rw [if_neg hm, if_neg (by
          simp only [List.mem_cons, not_or]
          exact ⟨fun e => hae e.symm, hm⟩)]

/-- The full specification of `deleteCategory` on a store whose categories
collection is duplicate-free: the name is removed (count down by one exactly
when it was present), the matching todos are rewritten to `'Uncategorized'`,
and matching selections are reset. -/
def DeleteCategorySpec (s : AppState) (name : String) : Prop :=
  name ∉ (deleteCategory s name).categories
  ∧ (deleteCategory s name).categories.length =
      (if name ∈ s.categories then s.categories.length - 1
       else s.categories.length)
  ∧ (deleteCategory s name).todos = s.todos.map (fun t =>
      if t.category = name then { t with category := "Uncategorized" }
      else t)
  ∧ (deleteCategory s name).selectedCategory =
      (if s.selectedCategory = name then "" else s.selectedCategory)
  ∧ (deleteCategory s name).filterCategory =
      (if s.filterCategory = name then "all" else s.filterCategory)

/-- C2: `deleteCategory` removes the name, rewrites the todos that carried
it to `'Uncategorized'`, decreases the categories count by exactly 1 when
the name was present (else leaves it unchanged), and resets a matching
input-selection to `""` and a matching filter to `"all"`.  The hypothesis
is the store's no-duplicates invariant, which every reachable state
satisfies. -/
theorem deleteCategory_spec (s : AppState) (name : String)
    (h : s.categories.Nodup) : DeleteCategorySpec s name := by
  refine ⟨?_, ?_, rfl, rfl, rfl⟩
  · simp [deleteCategory, List.mem_filter]
  · exact length_filter_ne_of_nodup name s.categories h

theorem deleteCategory_spec_witness :
    ((["Personal", "Work"] : List String).Nodup
      ∧ DeleteCategorySpec
          ⟨[⟨1, "milk", false, "Work"⟩], ["Personal", "Work"], "Work",
            "Work"⟩ "Work")
    ∧ ((["Personal"] : List String).Nodup
      ∧ DeleteCategorySpec ⟨[], ["Personal"], "", "all"⟩ "Absent") :=
  ⟨⟨by simp, deleteCategory_spec _ "Work" (by simp)⟩,
   ⟨by simp, deleteCategory_spec _ "Absent" (by simp)⟩⟩

/-- The behavior of a successful rename: `oldName` is replaced by the
TRIMMED new name, in place, in the categories collection; todos carrying
`oldName` are rewritten to the trimmed new name; matching selections are
updated to it. -/
def RenameCategorySpec (s : AppState) (oldName newName : String) : Prop :=
  (renameCategory s oldName newName).categories =
      s.categories.map (fun c => if c = oldName then jsTrim newName else c)
  ∧ (renameCategory s oldName newName).categories.length =
      s.categories.length
  ∧ (∀ i : Nat, (renameCategory s oldName newName).categories[i]? =
      (s.categories[i]?).map
        (fun c => if c = oldName then jsTrim newName else c))
  ∧ (renameCategory s oldName newName).todos = s.todos.map (fun t =>
      if t.category = oldName then { t with category := jsTrim newName }
      else t)
  ∧ (renameCategory s oldName newName).selectedCategory =
      (if s.selectedCategory = oldName then jsTrim newName
       else s.selectedCategory)
  ∧ (renameCategory s oldName newName).filterCategory =
      (if s.filterCategory = oldName then jsTrim newName
       else s.filterCategory)

/-- C3 (amended): `renameCategory` is a no-op when the trimmed new name is
empty or the TRIMMED new name already exists in the categories collection;
otherwise it replaces `oldName` by the TRIMMED new name at the same
position, rewrites matching todos to it, and updates matching
selections. -/
theorem renameCategory_spec (s : AppState) (oldName newName : String) :
    ((jsTrim newName = "" ∨ jsTrim newName ∈ s.categories) →
      renameCategory s oldName newName = s)
    ∧ (jsTrim newName ≠ "" → jsTrim newName ∉ s.categories →
      RenameCategorySpec s oldName newName) := by
  constructor
  · intro h
    unfold renameCategory
    rw [if_neg]
    intro hcon
    rcases h with h | h
    · exact hcon.1 h
    · exact hcon.2 h
  · intro h1 h2
    unfold RenameCategorySpec renameCategory
    rw [if_pos (And.intro h1 h2)]
    refine ⟨rfl, by simp, fun i => ?_, rfl, rfl, rfl⟩
    simp [List.getElem?_map]

/-- C3 counterexample: on categories `["A"]`, renaming `"A"` to `" B "`
stores the trimmed `"B"`, not the raw `" B "` the claim prescribes (the
claim's own no-op guard does not fire: `" B "` trims to a non-empty string
and is not a stored category). -/
theorem renameCategory_counterexample :
    (jsTrim " B " ≠ "" ∧ (" B " : String) ∉
        (⟨[], ["A"], "", "all"⟩ : AppState).categories)
    ∧ (renameCategory ⟨[], ["A"], "", "all"⟩ "A" " B ").categories = ["B"]
    ∧ (["B"] : List String) ≠ [" B "] := by decide

theorem renameCategory_spec_witness :
    renameCategory initState "Shopping" "Work" = initState
    ∧ (jsTrim " Chores " ≠ "" ∧ jsTrim " Chores " ∉ initState.categories
      ∧ RenameCategorySpec initState "Work" " Chores ") :=
  ⟨(renameCategory_spec initState "Shopping" "Work").1
      (Or.inr (by decide)),
   ⟨by decide, by decide,
    (renameCategory_spec initState "Work" " Chores ").2
      (by decide) (by decide)⟩⟩

theorem deleteCategory_absent_witness :
    DeleteCategoryCascadeSpec
      ⟨[⟨1, "x", false, "Ghost"⟩], [], "Ghost", "Ghost"⟩ "Ghost"
    ∧ ("Ghost" ∉ ([] : List String) →
        (deleteCategory ⟨[⟨1, "x", false, "Ghost"⟩], [], "Ghost", "Ghost"⟩
          "Ghost").categories = []) :=
  ⟨(deleteCategory_absent_spec
      ⟨[⟨1, "x", false, "Ghost"⟩], [], "Ghost", "Ghost"⟩ "Ghost").1,
   fun h => (deleteCategory_absent_spec
      ⟨[⟨1, "x", false, "Ghost"⟩], [], "Ghost", "Ghost"⟩ "Ghost").2.1 h⟩

/-! ## Duplicate-freeness of the categories collection (C6) -/

lemma mem_addCategory_of_mem (s : AppState) (name a : String)
    (h : a ∈ s.categories) : a ∈ (addCategory s name).categories := by
  unfold addCategory
  by_cases hc : jsTrim name ≠ "" ∧ jsTrim name ∉ s.categories
  · rw [if_pos hc]; exact List.mem_append_left _ h
  · rw [if_neg hc]; exact h

lemma addCategory_mem_self (s : AppState) (name : String)
    (htrim : jsTrim name = name) (hne : name ≠ "") :
    name ∈ (addCategory s name).categories := by
  unfold addCategory
  rw [htrim]
  by_cases h : name ∈ s.categories
  · by_cases h' : name ≠ "" ∧ name ∉ s.categories
    · exact absurd h h'.2
    · rw [if_neg h']; exact h
  · rw [if_pos ⟨hne, h⟩]
    exact List.mem_append_right _ (List.mem_singleton_self _)

lemma step_categories_nodup (s : AppState) (op : Op)
    (h : s.categories.Nodup) : (step s op).categories.Nodup := by
  cases op with
  | addTodo text now =>
    show (addTodo s text now).categories.Nodup
    unfold addTodo
    by_cases hc : jsTrim text ≠ ""
    · rw [if_pos hc]; exact h
    · rw [if_neg hc]; exact h
  | toggleTodo id => exact h
  | deleteTodo id => exact h
  | setFilter c => exact h
  | setInputCategory c => exact h
  | addCategory name =>
    show (addCategory s name).categories.Nodup
    unfold addCategory
    by_cases hc : jsTrim name ≠ "" ∧ jsTrim name ∉ s.categories
    · rw [if_pos hc]
      simp [List.nodup_append, h, hc.2]
    · rw [if_neg hc]; exact h
  | deleteCategory name =>
    show (deleteCategory s name).categories.Nodup
    exact h.filter _
  | renameCategory oldName newName =>
    show (renameCategory s oldName newName).categories.Nodup
    unfold renameCategory
    by_cases hc : jsTrim newName ≠ "" ∧ jsTrim newName ∉ s.categories
    · rw [if_pos hc]
      refine List.Nodup.map_on ?_ h
      intro x hx y hy hxy
      by_cases hxo : x = oldName <;> by_cases hyo : y = oldName
      · rw [hxo, hyo]
      · rw [if_pos hxo, if_neg hyo] at hxy
        subst hxy
        exact absurd hy hc.2
      · rw [if_neg hxo, if_pos hyo] at hxy
        subst hxy
        exact absurd hx hc.2
      · rwa [if_neg hxo, if_neg hyo] at hxy
    · rw [if_neg hc]; exact h

lemma runFrom_categories_nodup (ops : List Op) :
    ∀ s : AppState, s.categories.Nodup →
      (runFrom s ops).categories.Nodup := by
  induction ops with
  | nil => exact fun _ h => h
  | cons op ops ih => exact fun s h => ih _ (step_categories_nodup s op h)

/-- C6: in every state reachable by a trace of operations from the initial
state, the categories collection has no duplicates; in particular after two
consecutive `addCategory("Work")` calls the collection holds `"Work"`
exactly once. -/
theorem categories_nodup (ops : List Op) :
    (run ops).categories.Nodup
    ∧ (run (ops ++ [.addCategory "Work", .addCategory "Work"])
        ).categories.count "Work" = 1 := by
  have hND : ∀ ops' : List Op, (run ops').categories.Nodup := fun ops' =>
    runFrom_categories_nodup ops' initState (by simp [initState])
  refine ⟨hND ops, ?_⟩
  have e : run (ops ++ [.addCategory "Work", .addCategory "Work"]) =
      addCategory (addCategory (run ops) "Work") "Work" := by
    simp [run, runFrom, List.foldl_append, step]
  rw [e]
  have h2 : "Work" ∈
      (addCategory (addCategory (run ops) "Work") "Work").categories :=
    mem_addCategory_of_mem _ "Work" "Work"
      (addCategory_mem_self (run ops) "Work" (by decide) (by decide))
  have hnd2 :
      (addCategory (addCategory (run ops) "Work") "Work").categories.Nodup :=
    step_categories_nodup (addCategory (run ops) "Work")
      (.addCategory "Work")
      (step_categories_nodup (run ops) (.addCategory "Work") (hND ops))
  exact List.count_eq_one_of_mem hnd2 h2

/-! ## Todo ids along a trace (C8) -/

/-- The ids of the stored todos, in collection (= creation) order. -/
def todoIds (s : AppState) : List Nat := s.todos.map (·.id)

lemma step_shape (s : AppState) (op : Op) (ops : List Op) :
    (∃ text now, op = Op.addTodo text now) ∨
    (List.Sublist (todoIds (step s op)) (todoIds s) ∧ clocks (op :: ops) = clocks ops) := by
  cases op with
  | addTodo text now => exact Or.inl ⟨text, now, rfl⟩
  | toggleTodo id =>
    refine Or.inr ⟨?_, rfl⟩
    have he : todoIds (toggleTodo s id) = todoIds s := by
      simp only [todoIds, toggleTodo, List.map_map]
      apply List.map_congr_left
      intro t _
      by_cases h : t.id = id <;> simp [h]
    rw [show todoIds (step s (Op.toggleTodo id)) = todoIds s from he]
  | deleteTodo id =>
    refine Or.inr ⟨?_, rfl⟩
    show List.Sublist (todoIds (deleteTodo s id)) (todoIds s)
    exact (List.filter_sublist _).map _
  | addCategory name =>
    refine Or.inr ⟨?_, rfl⟩
    have he : todoIds (addCategory s name) = todoIds s := by
      unfold addCategory
      by_cases hc : jsTrim name ≠ "" ∧ jsTrim name ∉ s.categories
      · rw [if_pos hc]
        rfl
      · rw [if_neg hc]

    rw [show todoIds (step s (Op.addCategory name)) = todoIds s from he]
  | deleteCategory name =>
    refine Or.inr ⟨?_, rfl⟩
    have he : todoIds (deleteCategory s name) = todoIds s := by
      simp only [todoIds, deleteCategory, List.map_map]
      apply List.map_congr_left
      intro t _
      by_cases h : t.category = name <;> simp [h]
    rw [show todoIds (step s (Op.deleteCategory name)) = todoIds s from he]
  | renameCategory oldName newName =>
    refine Or.inr ⟨?_, rfl⟩
    have he : todoIds (renameCategory s oldName newName) = todoIds s := by
      unfold renameCategory
      by_cases hc : jsTrim newName ≠ "" ∧ jsTrim newName ∉ s.categories
      · rw [if_pos hc]
        simp only [todoIds, List.map_map]
        apply List.map_congr_left
        intro t _
        by_cases h : t.category = oldName <;> simp [h]
      · rw [if_neg hc]
    rw [show todoIds (step s (Op.renameCategory oldName newName)) =
      todoIds s from he]
  | setFilter c => exact Or.inr ⟨List.Sublist.refl _, rfl⟩
  | setInputCategory c => exact Or.inr ⟨List.Sublist.refl _, rfl⟩

lemma runFrom_ids_pairwise (R : Nat → Nat → Prop) :
    ∀ (ops : List Op) (s : AppState),
      (todoIds s).Pairwise R →
      (∀ i ∈ todoIds s, ∀ c ∈ clocks ops, R i c) →
      (clocks ops).Pairwise R →
      (todoIds (runFrom s ops)).Pairwise R := by
  intro ops
  induction ops with
  | nil => exact fun _ hp _ _ => hp
  | cons op ops ih =>
    intro s hp hb hc
    rcases step_shape s op ops with ⟨text, now, rfl⟩ | ⟨hsub, hck⟩
    · have hc' : (clocks ops).Pairwise R := (List.pairwise_cons.mp hc).2
      have hnow : ∀ c ∈ clocks ops, R now c := (List.pairwise_cons.mp hc).1
      show (todoIds (runFrom (addTodo s text now) ops)).Pairwise R
      by_cases ht : jsTrim text ≠ ""
      · have he : todoIds (addTodo s text now) = todoIds s ++ [now] := by
          simp [todoIds, addTodo, ht]
        apply ih (addTodo s text now)
        · rw [he]
          apply List.pairwise_append.mpr
          refine ⟨hp, List.pairwise_singleton _ _, ?_⟩
          intro a ha b hb'
          rw [List.mem_singleton] at hb'
          subst hb'
          exact hb a ha b (List.mem_cons_self _ _)
        · intro i hi c hcc
          rw [he] at hi
          rcases List.mem_append.mp hi with hi | hi
          · exact hb i hi c (List.mem_cons_of_mem _ hcc)
          · rw [List.mem_singleton] at hi
            subst hi
            exact hnow c hcc
        · exact hc'
      · have he : addTodo s text now = s := by
          unfold addTodo
          rw [if_neg ht]
        rw [he]
        exact ih s hp
          (fun i hi c hcc => hb i hi c (List.mem_cons_of_mem _ hcc)) hc'
    · show (todoIds (runFrom (step s op) ops)).Pairwise R
      apply ih (step s op) (hp.sublist hsub)
      · intro i hi c hcc
        exact hb i (hsub.subset hi) c (by rw [hck]; exact hcc)
      · rw [hck] at hc
        exact hc

/-- C8 (amended): along every trace, the stored todo ids appear in
creation order and are bounded by the `Date.now()` readings: when the
clock readings are nondecreasing the ids are nondecreasing in collection
order, and when the readings strictly increase the ids are strictly
increasing, hence pairwise distinct. -/
theorem todoIds_spec (ops : List Op) :
    (List.Chain' (· ≤ ·) (clocks ops) →
      (todoIds (run ops)).Pairwise (· ≤ ·))
    ∧ (List.Chain' (· < ·) (clocks ops) →
      (todoIds (run ops)).Pairwise (· < ·) ∧ (todoIds (run ops)).Nodup) := by
  constructor
  · intro h
    exact runFrom_ids_pairwise _ ops initState (by simp [todoIds, initState])
      (by simp [todoIds, initState]) (List.chain'_iff_pairwise.mp h)
  · intro h
    have hp := runFrom_ids_pairwise _ ops initState
      (by simp [todoIds, initState]) (by simp [todoIds, initState])
      (List.chain'_iff_pairwise.mp h)
    exact ⟨hp, hp.imp Nat.ne_of_lt⟩

theorem todoIds_spec_witness :
    List.Chain' (· ≤ ·) (clocks [.addTodo "a" 1, .addTodo "b" 2])
    ∧ List.Chain' (· < ·) (clocks [.addTodo "a" 1, .addTodo "b" 2])
    ∧ (todoIds (run [.addTodo "a" 1, .addTodo "b" 2])).Pairwise (· ≤ ·)
    ∧ (todoIds (run [.addTodo "a" 1, .addTodo "b" 2])).Nodup := by
  have h1 : List.Chain' (· ≤ ·) (clocks [.addTodo "a" 1, .addTodo "b" 2]) := by
    show List.Chain' (· ≤ ·) [1, 2]
    simp
  have h2 : List.Chain' (· < ·) (clocks [.addTodo "a" 1, .addTodo "b" 2]) := by
    show List.Chain' (· < ·) [1, 2]
    simp
  exact ⟨h1, h2, (todoIds_spec _).1 h1, ((todoIds_spec _).2 h2).2⟩

/-- C8 counterexample: two `addTodo` calls within the same millisecond
(`Date.now()` returning 5 twice — a nondecreasing, hence realistic, clock)
produce two todos with the same id, so the ids are not pairwise
distinct. -/
theorem todoIds_counterexample :
    List.Chain' (· ≤ ·) (clocks [.addTodo "a" 5, .addTodo "b" 5])
    ∧ todoIds (run [.addTodo "a" 5, .addTodo "b" 5]) = [5, 5]
    ∧ ¬ (todoIds (run [.addTodo "a" 5, .addTodo "b" 5])).Nodup := by
  have he : todoIds (run [.addTodo "a" 5, .addTodo "b" 5]) = [5, 5] := by
    decide
  refine ⟨?_, he, ?_⟩
  · show List.Chain' (· ≤ ·) [5, 5]
    simp
  · rw [he]
    simp

/-! ## Referential integrity of todo categories (C1) -/

lemma addCategory_todos (s : AppState) (name : String) :
    (addCategory s name).todos = s.todos := by
  unfold addCategory
  by_cases hc : jsTrim name ≠ "" ∧ jsTrim name ∉ s.categories
  · rw [if_pos hc]
  · rw [if_neg hc]

lemma addCategory_selected (s : AppState) (name : String) :
    (addCategory s name).selectedCategory = s.selectedCategory := by
  unfold addCategory
  by_cases hc : jsTrim name ≠ "" ∧ jsTrim name ∉ s.categories
  · rw [if_pos hc]
  · rw [if_neg hc]

lemma addTodo_invariant {s : AppState}
    (ih : TodoCategoriesValid s ∧ SelectionValid s) (text : String)
    (now : Nat) :
    TodoCategoriesValid (addTodo s text now)
      ∧ SelectionValid (addTodo s text now) := by
  obtain ⟨ihT, ihS⟩ := ih
  unfold addTodo
  by_cases htx : jsTrim text ≠ ""
  · rw [if_pos htx]
    refine ⟨?_, ihS⟩
    intro t ht
    rcases List.mem_append.mp ht with ht | ht
    · exact ihT t ht
    · rw [List.mem_singleton] at ht
      subst ht
      show (if s.selectedCategory = "" then "Uncategorized"
        else s.selectedCategory) = "Uncategorized" ∨ _
      by_cases hsel : s.selectedCategory = ""
      · rw [if_pos hsel]
        exact Or.inl rfl
      · rw [if_neg hsel]
        rcases ihS with h | h
        · exact absurd h hsel
        · exact Or.inr h
  · rw [if_neg htx]
    exact ⟨ihT, ihS⟩

lemma toggleTodo_invariant {s : AppState}
    (ih : TodoCategoriesValid s ∧ SelectionValid s) (id : Nat) :
    TodoCategoriesValid (toggleTodo s id)
      ∧ SelectionValid (toggleTodo s id) := by
  obtain ⟨ihT, ihS⟩ := ih
  refine ⟨?_, ihS⟩
  intro t ht
  rcases List.mem_map.mp ht with ⟨t₀, ht₀, rfl⟩
  have hcat : ((fun t =>
      if t.id = id then { t with completed := !t.completed }
      else t) t₀).category = t₀.category := by
    by_cases h : t₀.id = id <;> simp [h]
  rw [hcat]
  exact ihT t₀ ht₀

lemma deleteTodo_invariant {s : AppState}
    (ih : TodoCategoriesValid s ∧ SelectionValid s) (id : Nat) :
    TodoCategoriesValid (deleteTodo s id)
      ∧ SelectionValid (deleteTodo s id) := by
  obtain ⟨ihT, ihS⟩ := ih
  refine ⟨?_, ihS⟩
  intro t ht
  exact ihT t (List.mem_of_mem_filter ht)

lemma addCategory_invariant {s : AppState}
    (ih : TodoCategoriesValid s ∧ SelectionValid s) (name : String) :
    TodoCategoriesValid (addCategory s name)
      ∧ SelectionValid (addCategory s name) := by
  obtain ⟨ihT, ihS⟩ := ih
  constructor
  · intro t ht
    rw [addCategory_todos] at ht
    rcases ihT t ht with h | h
    · exact Or.inl h
    · exact Or.inr (mem_addCategory_of_mem s name _ h)
  · unfold SelectionValid
    rw [addCategory_selected]
    rcases ihS with h | h
    · exact Or.inl h
    · exact Or.inr (mem_addCategory_of_mem s name _ h)

lemma deleteCategory_invariant {s : AppState}
    (ih : TodoCategoriesValid s ∧ SelectionValid s) (name : String) :
    TodoCategoriesValid (deleteCategory s name)
      ∧ SelectionValid (deleteCategory s name) := by
  obtain ⟨ihT, ihS⟩ := ih
  constructor
  · intro t ht
    rcases List.mem_map.mp ht with ⟨t₀, ht₀, rfl⟩
    by_cases h : t₀.category = name
    · rw [if_pos h]
      exact Or.inl rfl
    · rw [if_neg h]
      rcases ihT t₀ ht₀ with h' | h'
      · exact Or.inl h'
      · exact Or.inr (List.mem_filter.mpr ⟨h', by simp [h]⟩)
  · show (if s.selectedCategory = name then "" else s.selectedCategory)
      = ""
      ∨ (if s.selectedCategory = name then "" else s.selectedCategory)
          ∈ s.categories.filter (· ≠ name)
    by_cases hs : s.selectedCategory = name
    · rw [if_pos hs]
      exact Or.inl rfl
    · rw [if_neg hs]
      rcases ihS with h | h
      · exact Or.inl h
      · exact Or.inr (List.mem_filter.mpr ⟨h, by simp [hs]⟩)

lemma renameCategory_invariant {s : AppState}
    (ih : TodoCategoriesValid s ∧ SelectionValid s) {oldName : String}
    (hold : oldName ∈ s.categories) (newName : String) :
    TodoCategoriesValid (renameCategory s oldName newName)
      ∧ SelectionValid (renameCategory s oldName newName) := by
  obtain ⟨ihT, ihS⟩ := ih
  unfold renameCategory
  by_cases hc : jsTrim newName ≠ "" ∧ jsTrim newName ∉ s.categories
  · rw [if_pos hc]
    have hnew : jsTrim newName ∈ s.categories.map
        (fun c => if c = oldName then jsTrim newName else c) :=
      List.mem_map.mpr ⟨oldName, hold, by rw [if_pos rfl]⟩
    have hkeep : ∀ c ∈ s.categories, c ≠ oldName →
        c ∈ s.categories.map
          (fun c => if c = oldName then jsTrim newName else c) :=
      fun c hcm hne => List.mem_map.mpr ⟨c, hcm, by rw [if_neg hne]⟩
    constructor
    · intro t ht
      rcases List.mem_map.mp ht with ⟨t₀, ht₀, rfl⟩
      by_cases h : t₀.category = oldName
      · rw [if_pos h]
        exact Or.inr hnew
      · rw [if_neg h]
        rcases ihT t₀ ht₀ with h' | h'
        · exact Or.inl h'
        · exact Or.inr (hkeep _ h' h)
    · show (if s.selectedCategory = oldName then jsTrim newName
        else s.selectedCategory) = "" ∨ _
      by_cases hs : s.selectedCategory = oldName
      · rw [if_pos hs]
        exact Or.inr hnew
      · rw [if_neg hs]
        rcases ihS with h | h
        · exact Or.inl h
        · exact Or.inr (hkeep _ h hs)
  · rw [if_neg hc]
    exact ⟨ihT, ihS⟩

lemma reachableUI_invariant {s : AppState} (h : ReachableUI s) :
    TodoCategoriesValid s ∧ SelectionValid s := by
  induction h with
  | init =>
    constructor
    · intro t ht
      simp [initState] at ht
    · exact Or.inl rfl
  | addTodo h text now ih => exact addTodo_invariant ih text now
  | toggleTodo h id ih => exact toggleTodo_invariant ih id
  | deleteTodo h id ih => exact deleteTodo_invariant ih id
  | addCategory h name ih => exact addCategory_invariant ih name
  | deleteCategory h name ih => exact deleteCategory_invariant ih name
  | renameCategory h hold newName ih =>
    exact renameCategory_invariant ih hold newName
  | setFilter h c ih => exact ih
  | setInputCategory h hc ih => exact ⟨ih.1, hc⟩

/-- C1 (amended): referential integrity holds on every state reachable
through the user interface, where `setSelectedCategory` only receives the
dropdown values (`""` or a stored category) and `saveEditCategory` only
renames a currently stored category: every todo's category is
`"Uncategorized"` or present in the categories collection. -/
theorem todoCategories_valid_of_reachableUI (s : AppState)
    (h : ReachableUI s) : TodoCategoriesValid s :=
  (reachableUI_invariant h).1

theorem todoCategories_valid_witness :
    ReachableUI (addTodo (setInputCategory initState "Work") "buy milk" 3)
    ∧ TodoCategoriesValid
        (addTodo (setInputCategory initState "Work") "buy milk" 3) :=
  have hr : ReachableUI
      (addTodo (setInputCategory initState "Work") "buy milk" 3) :=
    ReachableUI.addTodo
      (ReachableUI.setInputCategory ReachableUI.init (Or.inr (by decide)))
      "buy milk" 3
  ⟨hr, todoCategories_valid_of_reachableUI _ hr⟩

/-- C1 counterexample: the claim's own operation set lets
`setInputCategory` store any string, so the trace
`[setInputCategory "Bogus", addTodo "x"]` from the initial state creates a
todo whose category `"Bogus"` is neither `"Uncategorized"` nor a stored
category. -/
theorem todoCategories_invariant_counterexample :
    ¬ TodoCategoriesValid
        (run [.setInputCategory "Bogus", .addTodo "x" 1]) := by decide

/-! ## The derived view: filter then stable sort (C5) -/

/-- Specification of the derived view under a collation `lc`: the sorted
view is a permutation of the filtered todos, it is sorted by category under
`lc`, todos of any one category keep their original relative order
(stability), and the filtered todos are exactly the todos matching the
active filter (all of them under the `"all"` sentinel). -/
def SortedTodosSpec (lc : String → String → Ordering) (s : AppState) :
    Prop :=
  (sortedTodos lc s).Perm (filteredTodos s)
  ∧ List.Sorted (catLE lc) (sortedTodos lc s)
  ∧ (∀ c : String, (sortedTodos lc s).filter (fun t => t.category = c) =
      (filteredTodos s).filter (fun t => t.category = c))
  ∧ (s.filterCategory = "all" → filteredTodos s = s.todos)
  ∧ (s.filterCategory ≠ "all" →
      filteredTodos s = s.todos.filter
        (fun t => t.category = s.filterCategory))

/-- C5: for every collation that is irreflexively-bounded (`lc c c` never
`gt`), antisymmetric-enough and transitive — as `localeCompare` is — the
derived view is the stable sort by category of the todos selected by the
active filter; on the todos `[{B,1},{A,2},{A,3}]` (filter `"all"`) the
view's id order is `[2, 3, 1]`. -/
theorem sortedTodos_spec :
    (∀ lc : String → String → Ordering,
      (∀ c, lc c c ≠ Ordering.gt) →
      (∀ a b, lc a b = Ordering.gt → lc b a ≠ Ordering.gt) →
      (∀ a b c, lc a b ≠ Ordering.gt → lc b c ≠ Ordering.gt →
        lc a c ≠ Ordering.gt) →
      ∀ s : AppState, SortedTodosSpec lc s)
    ∧ (sortedTodos compare
        ⟨[⟨1, "t1", false, "B"⟩, ⟨2, "t2", false, "A"⟩,
          ⟨3, "t3", false, "A"⟩], ["A", "B"], "", "all"⟩).map Todo.id
        = [2, 3, 1] := by
  constructor
  · intro lc hrefl htot htrans s
    haveI : IsTotal Todo (catLE lc) := ⟨fun a b => by
      unfold catLE
      by_cases h : lc a.category b.category = Ordering.gt
      · exact Or.inr (htot _ _ h)
      · exact Or.inl h⟩
    haveI : IsTrans Todo (catLE lc) :=
      ⟨fun a b c hab hbc => htrans _ _ _ hab hbc⟩
    refine ⟨List.perm_insertionSort _ _, List.sorted_insertionSort _ _,
      ?_, fun h => by simp [filteredTodos, h], fun h => by
        simp [filteredTodos, h]⟩
    intro c
    have hpw : ((filteredTodos s).filter
        (fun t => t.category = c)).Pairwise (catLE lc) := by
      apply List.pairwise_of_forall_mem_list
      intro a ha b hb
      have hac : a.category = c := by
        have h' := (List.mem_filter.mp ha).2
        simpa using h'
      have hbc : b.category = c := by
        have h' := (List.mem_filter.mp hb).2
        simpa using h'
      unfold catLE
      rw [hac, hbc]
      exact hrefl c
    have hsub := List.sublist_insertionSort hpw
      (List.filter_sublist (filteredTodos s))
    have hff : (((filteredTodos s).filter
        (fun t => t.category = c)).filter (fun t => t.category = c)) =
        (filteredTodos s).filter (fun t => t.category = c) :=
      List.filter_eq_self.mpr fun a ha => (List.mem_filter.mp ha).2
    have hsub2 := hsub.filter (fun t => decide (t.category = c))
    rw [hff] at hsub2
    have hlen := ((List.perm_insertionSort (catLE lc)
        (filteredTodos s)).filter
          (fun t => decide (t.category = c))).length_eq
    exact (hsub2.eq_of_length hlen.symm).symm
  · decide

theorem sortedTodos_spec_witness :
    SortedTodosSpec (fun _ _ => Ordering.eq)
      ⟨[⟨1, "t1", false, "B"⟩, ⟨2, "t2", false, "A"⟩,
        ⟨3, "t3", false, "A"⟩], ["A", "B"], "", "all"⟩ :=
  sortedTodos_spec.1 (fun _ _ => Ordering.eq)
    (fun _ h => nomatch h) (fun _ _ h => nomatch h)
    (fun _ _ _ _ h => h) _

end TodoApp
